import Mathlib

/-!
Verification of the motif pattern engine in
`antismash/common/pattern_search.py`.

The Python module is shallowly embedded below.  Sequences and pattern
strings are `List Char`; Python `int` is `Int`; Python exceptions raised
during compilation are `Except String`.  The singly linked chain of
`Element` objects (each holding `next_element`) is represented as a
`List Element` whose head is the first element of the chain and whose
tail is the chain hanging off `next_element`; the empty list stands for
`next_element = None`.
-/

deriving instance DecidableEq for Except

namespace PatternSearch

/-- The amino-acid alphabet `AMINOS` of the source module. -/
def AMINOS : List Char :=
  ['A', 'C', 'D', 'E', 'F', 'G', 'H', 'I', 'K',
   'L', 'M', 'N', 'P', 'Q', 'R', 'S', 'T', 'V', 'W', 'Y']

/-- The `Match` value class: a hit flag plus the stored distance
(the Python attribute `_distance`, default `-1`). -/
structure Match where
  hit : Bool
  dist : Int
  deriving DecidableEq, Repr

/-- The `Match.__init__` constructor: when `hit` is set it asserts
`distance > -1`; an assertion failure is modelled as an error. -/
def Match.build (hit : Bool) (distance : Int) : Except String Match :=
  if hit = true ∧ distance ≤ -1 then Except.error "assertion failed: distance > -1"
  else Except.ok ⟨hit, distance⟩

/-- The `Match.distance` property: raises `ValueError` when there was
no hit, otherwise returns the stored distance. -/
def Match.distance (m : Match) : Except String Int :=
  if m.hit = false then Except.error "Cannot access distance without a match"
  else Except.ok m.dist

/-- The `MatchLocation` value class: a half-open span.  The second
field is named `end` in the source; `end` is a Lean keyword, so it is
called `stop` here. -/
structure MatchLocation where
  start : Int
  stop : Int
  deriving DecidableEq, Repr

/-- The four `Element` subclasses of the source, as a closed variant:
`SimpleAmino` (with its `amino`), `AnyAmino`, `MultipleAmino` (with its
`options` set and `optional_c_terminus` flag) and `NegatedAmino` (with
its `options` set). -/
inductive ElementKind where
  | simple (amino : Char)
  | anyAmino
  | multiple (options : List Char) (optional_c_terminus : Bool)
  | negated (options : List Char)
  deriving DecidableEq, Repr

/-- The data carried by every `Element`: its kind together with the
base-class attributes `min_repeats`, `max_repeats`, `nterm`, `cterm`.
The `next_element` link is represented externally: a chain is a
`List Element`. -/
structure Element where
  kind : ElementKind
  min_repeats : Int
  max_repeats : Int
  nterm : Bool
  cterm : Bool
  deriving DecidableEq, Repr

/-- Python `range(hi, lo - 1, -1)`: the descending list
`[hi, hi - 1, ..., lo]`, empty when `hi < lo`. -/
def descRange (hi lo : Int) : List Int :=
  (List.range (hi - lo + 1).toNat).map (fun (k : Nat) => hi - (k : Int))

/-- Python `range(a, b)`: the ascending list `[a, ..., b - 1]`,
empty when `b ≤ a`. -/
def intRange (a b : Int) : List Int :=
  (List.range (b - a).toNat).map (fun (k : Nat) => a + (k : Int))

/-- `sequence[offset]` for an in-bounds non-negative offset.  Every
call site guards the index first (Python short-circuit `and`), so the
default is never reached through a true guard. -/
def seqAt (seq : List Char) (offset : Int) : Char :=
  seq.getD offset.toNat '?'

/-- `Element.offset_ok`. -/
def offset_ok (e : Element) (seq : List Char) (offset : Int) : Bool :=
  if ¬ (0 ≤ offset ∧ offset < (seq.length : Int)) then false
  else if e.nterm = true ∧ e.max_repeats ≤ offset then false
  else if e.cterm = true ∧ offset < (seq.length : Int) - e.max_repeats then false
  else true

/-- The `match` method of the four `Element` subclasses, dispatched on
the kind: `SimpleAmino.match`, `AnyAmino.match`, `MultipleAmino.match`
(with its out-of-bounds `optional_c_terminus` branch of distance 0) and
`NegatedAmino.match`. -/
def elemMatch (e : Element) (seq : List Char) (offset : Int) : Match :=
  match e.kind with
  | ElementKind.simple a =>
      ⟨offset_ok e seq offset && (seqAt seq offset == a), 1⟩
  | ElementKind.anyAmino =>
      ⟨offset_ok e seq offset, 1⟩
  | ElementKind.multiple options optional_c_terminus =>
      if ¬ (0 ≤ offset ∧ offset < (seq.length : Int)) then
        ⟨optional_c_terminus && (decide (0 ≤ offset) && decide (offset ≤ (seq.length : Int))), 0⟩
      else
        ⟨offset_ok e seq offset && options.contains (seqAt seq offset), 1⟩
  | ElementKind.negated options =>
      ⟨offset_ok e seq offset && !(options.contains (seqAt seq offset)), 1⟩

/-- `Element.match_including_following` on a chain `e :: rest`: try the
repeat counts greedily from `max_repeats` down to `min_repeats`; for a
non-zero count first skip it when fewer than `repeat - 1` characters
remain, then require `match` to hit at all `repeat` consumed positions;
then recurse into the successor chain at `offset + repeat` (or succeed
with distance `repeat` when the chain ends here); the first success is
returned, otherwise the next smaller count is tried. -/
def matchIncludingFollowing : List Element → List Char → Int → Match
  | [], _, _ => ⟨false, -1⟩
  | e :: rest, seq, offset =>
    (((descRange e.max_repeats e.min_repeats).findSome? (fun r =>
      if r ≠ 0 ∧ (seq.length : Int) - offset < r - 1 then none
      else if r ≠ 0 ∧
          ¬ ((intRange offset (offset + r)).all (fun i => (elemMatch e seq i).hit)) then none
      else
        match rest with
        | [] => some ⟨true, r⟩
        | e2 :: rest2 =>
          let nextmatch := matchIncludingFollowing (e2 :: rest2) seq (offset + r)
          if nextmatch.hit then some ⟨true, r + nextmatch.dist⟩ else none)).getD ⟨false, -1⟩)

/-- `Element.match_all_possible` on a chain `e :: rest`: the same
descent as `matchIncludingFollowing`, but collecting one
`MatchLocation` per successful total consumption, for every repeat
count in the descending range. -/
def matchAllPossible : List Element → List Char → Int → List MatchLocation
  | [], _, _ => []
  | e :: rest, seq, offset =>
    (descRange e.max_repeats e.min_repeats).flatMap (fun r =>
      if r ≠ 0 ∧ (seq.length : Int) - offset < r - 1 then []
      else if r ≠ 0 ∧
          ¬ ((intRange offset (offset + r)).all (fun i => (elemMatch e seq i).hit)) then []
      else
        match rest with
        | [] =>
          if offset + r ≤ (seq.length : Int) then [⟨offset, offset + r⟩] else []
        | e2 :: rest2 =>
          (matchAllPossible (e2 :: rest2) seq (offset + r)).map (fun loc => ⟨offset, loc.stop⟩))

/-- `Pattern.find`: the `while anchor_idx < len(sequence)` loop,
embedded as a left-to-right scan of the anchor indices
`0, ..., len - 1`; the position of the first hit is returned, `-1` when
there is none. -/
def find (elements : List Element) (seq : List Char) : Int :=
  ((List.range seq.length).findSome? (fun (anchor : Nat) =>
    if (matchIncludingFollowing elements seq (anchor : Int)).hit then some ((anchor : Int))
    else none)).getD (-1)

/-- `Pattern.find_all`: the `while index < len(sequence)` loop,
embedded as a left-to-right scan of the indices `0, ..., len - 1`,
concatenating the `match_all_possible` results in scan order. -/
def find_all (elements : List Element) (seq : List Char) : List MatchLocation :=
  (List.range seq.length).flatMap (fun (index : Nat) => matchAllPossible elements seq (index : Int))

/-- The success condition of one repeat count `r` at a chain link, as
the specification words it: the element matches (`match` hits) at all
`r` consumed positions `offset, ..., offset + r - 1`, and the successor
chain matches at `offset + r` (no successor counting as success). -/
def goodRep (e : Element) (rest : List Element) (seq : List Char) (offset r : Int) : Bool :=
  ((intRange offset (offset + r)).all (fun i => (elemMatch e seq i).hit)) &&
  (match rest with
   | [] => true
   | _ :: _ => (matchIncludingFollowing rest seq (offset + r)).hit)

/-- The match returned for a successful repeat count `r`: distance `r`
alone for the last element of the chain, `r` plus the successor
distance otherwise. -/
def greedyValue (rest : List Element) (seq : List Char) (offset r : Int) : Match :=
  match rest with
  | [] => ⟨true, r⟩
  | _ :: _ => ⟨true, r + (matchIncludingFollowing rest seq (offset + r)).dist⟩

/-- Python `str.split(sep)` for a one-character separator: splits on
every occurrence, keeping empty chunks, always at least one chunk. -/
def split_on (sep : Char) : List Char → List (List Char)
  | [] => [[]]
  | c :: rest =>
    match split_on sep rest with
    | [] => [[]]
    | g :: gs => if c = sep then [] :: g :: gs else (c :: g) :: gs

/-- Python `str.strip(".")`: drop leading and trailing periods. -/
def strip_dots (l : List Char) : List Char :=
  ((l.dropWhile (fun c => c = '.')).reverse.dropWhile (fun c => c = '.')).reverse

/-- A nonempty all-digit string as a natural number. -/
def parseNatDigits (s : List Char) : Option Nat :=
  if s = [] ∨ ¬ (s.all Char.isDigit) then none
  else some (s.foldl (fun acc c => 10 * acc + (c.toNat - 48)) 0)

/-- Python `int(...)` restricted to the shapes the module feeds it:
an optional minus sign followed by digits. -/
def parseInt (s : List Char) : Option Int :=
  match s with
  | '-' :: rest => (parseNatDigits rest).map (fun (n : Nat) => -(n : Int))
  | _ => (parseNatDigits s).map (fun (n : Nat) => (n : Int))

/-- The comprehension `[int(number) for number in ...]`: convert every
chunk, failing on the first chunk `int` rejects. -/
def parseIntList : List (List Char) → Option (List Int)
  | [] => some []
  | p :: ps =>
    match parseInt p, parseIntList ps with
    | some v, some vs => some (v :: vs)
    | _, _ => none

/-- `parse_repeats(sequence, offset)`: `(1, 1)` when the string ends
before `offset`; otherwise the parenthesised one- or two-number repeat
specification (the source interpolates the input into the
`Invalid repeat` message; the message is kept plain here). -/
def parse_repeats (sequence : List Char) (offset : Nat) : Except String (Int × Int) :=
  if (sequence.length : Int) - 1 < (offset : Int) then Except.ok (1, 1)
  else if ¬ (sequence.getD offset '?' = '(' ∧ sequence.getLast? = some ')') then
    Except.error "Brackets do not match"
  else
    match parseIntList (split_on ',' (sequence.drop (offset + 1)).dropLast) with
    | none => Except.error "Invalid repeat"
    | some repeats =>
      match repeats with
      | [r] => Except.ok (r, r)
      | [r1, r2] => Except.ok (r1, r2)
      | _ => Except.error "Invalid repeat"

/-- The `AmbiguityOptions` result record of `parse_options`. -/
structure AmbiguityOptions where
  options : List Char
  min_repeats : Int
  max_repeats : Int
  optional_cterm : Bool
  deriving DecidableEq, Repr

/-- Python `set.add` on the option list: membership-preserving insert. -/
def addOption (options : List Char) (c : Char) : List Char :=
  if options.contains c then options else options ++ [c]

/-- The `while idx < len(sequence) and sequence[idx] != end` loop of
`parse_options`: walk the suffix `sequence[idx:]` of the class body,
collecting options and the at-most-one `>` marker, stopping at the
closing bracket or the end of the string; returns the final index with
the collected state. -/
def parseOptionsLoop (endc : Char) :
    List Char → Nat → List Char → Bool → Except String (Nat × List Char × Bool)
  | [], idx, options, optional_c_terminus => Except.ok (idx, options, optional_c_terminus)
  | c :: remaining, idx, options, optional_c_terminus =>
    if c = endc then Except.ok (idx, options, optional_c_terminus)
    else if AMINOS.contains c then
      parseOptionsLoop endc remaining (idx + 1) (addOption options c) optional_c_terminus
    else if c = '>' ∧ optional_c_terminus = false then
      parseOptionsLoop endc remaining (idx + 1) options true
    else Except.error "Invalid amino acid"

/-- `parse_options(sequence, start, end)`: validate the brackets, walk
the class body from index 1, parse the repeat suffix and reject an
empty option set. -/
def parse_options (sequence : List Char) (startc endc : Char) :
    Except String AmbiguityOptions :=
  if ¬ (sequence.getD 0 '?' = startc) then Except.error "Brackets do not match"
  else
    match parseOptionsLoop endc (sequence.drop 1) 1 [] false with
    | Except.error e => Except.error e
    | Except.ok (idx, options, optional_c_terminus) =>
      if idx = sequence.length then Except.error "Brackets do not match"
      else
        match parse_repeats sequence (idx + 1) with
        | Except.error e => Except.error e
        | Except.ok (mn, mx) =>
          if options.isEmpty then Except.error "No valid options provided"
          else Except.ok ⟨options, mn, mx, optional_c_terminus⟩

/-- `parse_terminus(element)`: strip a leading `<` and a trailing `>`,
reporting which were present (the two sequential strips written as one
four-way case split). -/
def parse_terminus (element : List Char) : Bool × List Char × Bool :=
  if element.head? = some '<' then
    if element.tail.getLast? = some '>' then (true, element.tail.dropLast, true)
    else (true, element.tail, false)
  else
    if element.getLast? = some '>' then (false, element.dropLast, true)
    else (false, element, false)

/-- `Element.__init__` on a chain: reject a successor that is
start-anchored and an end anchor in the presence of a successor, then
put the new element at the head of the chain. -/
def element_init (kind : ElementKind) (mn mx : Int) (rest : List Element)
    (nterm cterm : Bool) : Except String (List Element) :=
  if (rest.head?.map Element.nterm).getD false = true then Except.error "Invalid pattern"
  else if cterm = true ∧ ¬ (rest = []) then Except.error "Invalid pattern"
  else Except.ok (⟨kind, mn, mx, nterm, cterm⟩ :: rest)

/-- `SimpleAmino.__init__`. -/
def SimpleAmino (element : List Char) (rest : List Element) (nterm cterm : Bool) :
    Except String (List Element) :=
  if ¬ (AMINOS.contains (element.getD 0 '?')) then Except.error "Invalid amino acid"
  else
    match parse_repeats element 1 with
    | Except.error e => Except.error e
    | Except.ok (mn, mx) =>
      element_init (ElementKind.simple (element.getD 0 '?')) mn mx rest nterm cterm

/-- `AnyAmino.__init__`. -/
def AnyAmino (element : List Char) (rest : List Element) (nterm cterm : Bool) :
    Except String (List Element) :=
  if ¬ (element.getD 0 '?' = 'x') then
    Except.error "Attempting to use defined amino acid as AnyAmino"
  else
    match parse_repeats element 1 with
    | Except.error e => Except.error e
    | Except.ok (mn, mx) => element_init ElementKind.anyAmino mn mx rest nterm cterm

/-- `MultipleAmino.__init__`. -/
def MultipleAmino (element : List Char) (rest : List Element) (nterm cterm : Bool) :
    Except String (List Element) :=
  match parse_options element '[' ']' with
  | Except.error e => Except.error e
  | Except.ok parsed =>
    element_init (ElementKind.multiple parsed.options parsed.optional_cterm)
      parsed.min_repeats parsed.max_repeats rest nterm cterm

/-- `NegatedAmino.__init__`. -/
def NegatedAmino (element : List Char) (rest : List Element) (nterm cterm : Bool) :
    Except String (List Element) :=
  match parse_options element '{' '}' with
  | Except.error e => Except.error e
  | Except.ok parsed =>
    element_init (ElementKind.negated parsed.options)
      parsed.min_repeats parsed.max_repeats rest nterm cterm

/-- The per-part dispatch of `Pattern.__init__`: strip the terminus
markers, then choose the element class from the first character. -/
def buildElement (chain : List Element) (part : List Char) :
    Except String (List Element) :=
  if AMINOS.contains ((parse_terminus part).2.1.getD 0 '?') then
    SimpleAmino (parse_terminus part).2.1 chain (parse_terminus part).1 (parse_terminus part).2.2
  else if (parse_terminus part).2.1.getD 0 '?' = 'x' then
    AnyAmino (parse_terminus part).2.1 chain (parse_terminus part).1 (parse_terminus part).2.2
  else if (parse_terminus part).2.1.getD 0 '?' = '[' then
    MultipleAmino (parse_terminus part).2.1 chain (parse_terminus part).1 (parse_terminus part).2.2
  else if (parse_terminus part).2.1.getD 0 '?' = '{' then
    NegatedAmino (parse_terminus part).2.1 chain (parse_terminus part).1 (parse_terminus part).2.2
  else Except.error "Invalid pattern"

/-- `Pattern.__init__`: assert the trailing period, split the stripped
string on dashes, and build the chain tail-first over the reversed
parts; the resulting list is the chain starting at `self.head`. -/
def mkPattern (pattern_string : List Char) : Except String (List Element) :=
  if ¬ (pattern_string.getLast? = some '.') then
    Except.error "assertion failed: pattern string must end with a period"
  else
    match (split_on '-' (strip_dots pattern_string)).reverse.foldlM buildElement [] with
    | Except.error e => Except.error e
    | Except.ok chain =>
      if chain = [] then Except.error "assertion failed: head is None"
      else Except.ok chain

/-! ### Helper lemmas about the embedded engine -/

theorem mem_descRange {hi lo r : Int} : r ∈ descRange hi lo ↔ lo ≤ r ∧ r ≤ hi := by
  unfold descRange
  rw [List.mem_map]
  constructor
  · rintro ⟨k, hk, rfl⟩
    rw [List.mem_range] at hk
    omega
  · rintro ⟨h1, h2⟩
    refine ⟨(hi - r).toNat, ?_, by omega⟩
    rw [List.mem_range]
    omega

theorem mem_intRange {a b i : Int} : i ∈ intRange a b ↔ a ≤ i ∧ i < b := by
  unfold intRange
  rw [List.mem_map]
  constructor
  · rintro ⟨k, hk, rfl⟩
    rw [List.mem_range] at hk
    omega
  · rintro ⟨h1, h2⟩
    refine ⟨(i - a).toNat, ?_, by omega⟩
    rw [List.mem_range]
    omega

theorem offset_ok_false_of_out {e : Element} {seq : List Char} {i : Int}
    (h : ¬ (0 ≤ i ∧ i < (seq.length : Int))) : offset_ok e seq i = false := by
  simp [offset_ok, h]

theorem elemMatch_hit_false_of_gt_length {e : Element} {seq : List Char} {i : Int}
    (h : (seq.length : Int) < i) : (elemMatch e seq i).hit = false := by
  have hout : ¬ (0 ≤ i ∧ i < (seq.length : Int)) := by omega
  have hok := offset_ok_false_of_out (e := e) hout
  cases hk : e.kind with
  | simple a => simp [elemMatch, hk, hok]
  | anyAmino => simp [elemMatch, hk, hok]
  | multiple options oc =>
      have h2 : ¬ (i ≤ (seq.length : Int)) := by omega
      simp [elemMatch, hk, hout, h2]
  | negated options => simp [elemMatch, hk, hok]

theorem offset_ok_of_elemMatch_hit {e : Element} {seq : List Char} {i : Int}
    (hin : 0 ≤ i ∧ i < (seq.length : Int)) (h : (elemMatch e seq i).hit = true) :
    offset_ok e seq i = true := by
  cases hk : e.kind with
  | simple a =>
      simp only [elemMatch, hk] at h
      rw [Bool.and_eq_true] at h
      exact h.1
  | anyAmino => simpa [elemMatch, hk] using h
  | multiple options oc =>
      simp only [elemMatch, hk] at h
      rw [if_neg (not_not_intro hin)] at h
      simp only at h
      rw [Bool.and_eq_true] at h
      exact h.1
  | negated options =>
      simp only [elemMatch, hk] at h
      rw [Bool.and_eq_true] at h
      exact h.1

theorem nterm_bound_of_offset_ok {e : Element} {seq : List Char} {i : Int}
    (h : offset_ok e seq i = true) (hn : e.nterm = true) : i < e.max_repeats := by
  by_contra hcon
  have hc : e.nterm = true ∧ e.max_repeats ≤ i := ⟨hn, by omega⟩
  simp [offset_ok, hc] at h

theorem matchAllPossible_start {e : Element} {rest : List Element} {seq : List Char}
    {offset : Int} {loc : MatchLocation} (h : loc ∈ matchAllPossible (e :: rest) seq offset) :
    loc.start = offset := by
  unfold matchAllPossible at h
  rw [List.mem_flatMap] at h
  obtain ⟨r, _, hbody⟩ := h
  split at hbody
  · simp at hbody
  · split at hbody
    · simp at hbody
    · split at hbody
      · split at hbody
        · rw [List.mem_singleton] at hbody
          subst hbody
          rfl
        · simp at hbody
      · rw [List.mem_map] at hbody
        obtain ⟨l, _, rfl⟩ := hbody
        rfl

theorem all_hit_at_offset {e : Element} {seq : List Char} {offset r : Int}
    (hr : 1 ≤ r)
    (hall : (intRange offset (offset + r)).all (fun i => (elemMatch e seq i).hit) = true) :
    (elemMatch e seq offset).hit = true := by
  rw [List.all_eq_true] at hall
  exact hall offset (mem_intRange.mpr ⟨le_refl offset, by omega⟩)

theorem anchored_start_bound {e : Element} {rest : List Element} {seq : List Char} {i : Nat}
    (hi : i < seq.length) (hn : e.nterm = true) (hmin : 1 ≤ e.min_repeats)
    {loc : MatchLocation} (h : loc ∈ matchAllPossible (e :: rest) seq (i : Int)) :
    (i : Int) < e.max_repeats := by
  unfold matchAllPossible at h
  rw [List.mem_flatMap] at h
  obtain ⟨r, hr, hbody⟩ := h
  obtain ⟨hrlo, _⟩ := mem_descRange.mp hr
  have hr1 : 1 ≤ r := le_trans hmin hrlo
  split at hbody
  · simp at hbody
  · split at hbody
    · simp at hbody
    · rename_i hguard
      have hall : (intRange (i : Int) ((i : Int) + r)).all
          (fun j => (elemMatch e seq j).hit) = true := by
        by_contra hcon
        exact hguard ⟨by omega, hcon⟩
      have hhit := all_hit_at_offset hr1 hall
      have hok := offset_ok_of_elemMatch_hit ⟨by omega, by exact_mod_cast hi⟩ hhit
      exact nterm_bound_of_offset_ok hok hn

/-! ### Claim theorems -/

/-- **C1** (amended): `find_all` scans every offset of the sequence in
ascending order, anchored or not, concatenating the
`match_all_possible` results; the start anchor is enforced only inside
`offset_ok`, so when the head element is start-anchored and has
`min_repeats ≥ 1` every returned location starts strictly below the
head's `max_repeats` (hence at 0 exactly when `max_repeats = 1`), but
not necessarily at 0 in general. -/
theorem claim_C1 (e : Element) (rest : List Element) (seq : List Char) :
    find_all (e :: rest) seq =
      ((List.range seq.length).map
        (fun (i : Nat) => matchAllPossible (e :: rest) seq (i : Int))).flatten ∧
    (e.nterm = true → 1 ≤ e.min_repeats →
      ∀ loc ∈ find_all (e :: rest) seq,
        0 ≤ loc.start ∧ loc.start < e.max_repeats) := by
  constructor
  · exact List.flatMap_def _ _
  · intro hn hmin loc hloc
    rw [find_all, List.mem_flatMap] at hloc
    obtain ⟨i, hi, hm⟩ := hloc
    rw [List.mem_range] at hi
    have hstart := matchAllPossible_start hm
    have hbound := anchored_start_bound hi hn hmin hm
    rw [hstart]
    exact ⟨by omega, hbound⟩

theorem claim_C1_witness :
    0 ≤ (⟨0, 1⟩ : MatchLocation).start ∧
    (⟨0, 1⟩ : MatchLocation).start <
      (⟨ElementKind.simple 'A', 1, 1, true, false⟩ : Element).max_repeats :=
  (claim_C1 ⟨ElementKind.simple 'A', 1, 1, true, false⟩ [] (String.toList "AA")).2
    rfl (by decide) ⟨0, 1⟩ (by decide)

/-- **C1** (counterexample): the start-anchored compiled pattern
`<A(1,2).` does not restrict `find_all` to spans starting at offset 0:
on `AAA` it returns a location with start 1, because `find_all` scans
every offset and `offset_ok` only requires `offset < max_repeats = 2`
of the start-anchored element. -/
theorem claim_C1_counterexample :
    mkPattern (String.toList "<A(1,2).") =
      Except.ok [⟨ElementKind.simple 'A', 1, 2, true, false⟩] ∧
    find_all [⟨ElementKind.simple 'A', 1, 2, true, false⟩] (String.toList "AAA") =
      [⟨0, 2⟩, ⟨0, 1⟩, ⟨1, 2⟩] ∧
    ¬ (∀ loc ∈ find_all [⟨ElementKind.simple 'A', 1, 2, true, false⟩] (String.toList "AAA"),
        loc.start = 0) := by
  refine ⟨by decide, by decide, by decide⟩

/-- **C2**: contrary to the specified (and unit-tested) behaviour, the
code compiles a class element that carries both the in-class optional
end-of-sequence marker and a fixed end-anchor marker: `[A>]>.` compiles
into a usable pattern (its `find` works) instead of failing with an
invalid-pattern error. -/
theorem claim_C2 :
    mkPattern (String.toList "[A>]>.") =
      Except.ok [⟨ElementKind.multiple ['A'] true, 1, 1, false, true⟩] ∧
    find [⟨ElementKind.multiple ['A'] true, 1, 1, false, true⟩] (String.toList "A") = 0 := by
  refine ⟨by decide, by decide⟩

/-- **C3** (amended): an empty option set is rejected in every case:
`parse_options` only ever succeeds with a non-empty option set, and the
end-of-sequence-only class `[>]` does not compile — it fails with the
`No valid options provided` error like any other empty class. -/
theorem claim_C3 (s : List Char) (a b : Char) (opts : AmbiguityOptions)
    (h : parse_options s a b = Except.ok opts) :
    opts.options ≠ [] ∧
    mkPattern (String.toList "[>].") = Except.error "No valid options provided" := by
  refine ⟨?_, by decide⟩
  unfold parse_options at h
  split at h
  · exact absurd h (by simp)
  · split at h
    · exact absurd h (by simp)
    · split at h
      · exact absurd h (by simp)
      · split at h
        · exact absurd h (by simp)
        · split at h
          · exact absurd h (by simp)
          · rename_i hne
            obtain rfl := Except.ok.inj h
            simpa using hne

theorem claim_C3_witness : (['A'] : List Char) ≠ [] :=
  (claim_C3 (String.toList "[A]") '[' ']' ⟨['A'], 1, 1, false⟩ (by decide)).1

/-- **C3** (counterexample): the claimed exception does not exist: the
end-of-sequence-only class `[>]` is rejected by the compiler with the
empty-option-set error. -/
theorem claim_C3_counterexample :
    parse_options (String.toList "[>]") '[' ']' =
      Except.error "No valid options provided" ∧
    mkPattern (String.toList "[>].") = Except.error "No valid options provided" := by
  refine ⟨by decide, by decide⟩

/-- **C6**: the compiled pattern `A-[T>](1,2).` on `MAGICHAT` yields
exactly the one span `[6, 8)` covering `AT`; and a class element with
the end-of-sequence alternative yields a zero-width hit exactly when
the offset equals the sequence length. -/
theorem claim_C6 :
    mkPattern (String.toList "A-[T>](1,2).") =
      Except.ok [⟨ElementKind.simple 'A', 1, 1, false, false⟩,
                 ⟨ElementKind.multiple ['T'] true, 1, 2, false, false⟩] ∧
    find_all [⟨ElementKind.simple 'A', 1, 1, false, false⟩,
              ⟨ElementKind.multiple ['T'] true, 1, 2, false, false⟩]
        (String.toList "MAGICHAT") = [⟨6, 8⟩] ∧
    ∀ (options : List Char) (mn mx : Int) (nt ct : Bool) (seq : List Char) (offset : Int),
      ((elemMatch ⟨ElementKind.multiple options true, mn, mx, nt, ct⟩ seq offset).hit = true ∧
        (elemMatch ⟨ElementKind.multiple options true, mn, mx, nt, ct⟩ seq offset).dist = 0) ↔
      offset = (seq.length : Int) := by
  refine ⟨by decide, by decide, ?_⟩
  intro options mn mx nt ct seq offset
  by_cases hin : 0 ≤ offset ∧ offset < (seq.length : Int)
  · constructor
    · rintro ⟨hh, hd⟩
      exfalso
      simp [elemMatch, hin] at hd
    · intro hlen
      exfalso
      omega
  · constructor
    · rintro ⟨hh, hd⟩
      simp only [elemMatch, if_pos hin, Bool.true_and] at hh
      rw [Bool.and_eq_true, decide_eq_true_iff, decide_eq_true_iff] at hh
      omega
    · intro hlen
      subst hlen
      refine ⟨?_, ?_⟩
      · simp only [elemMatch, if_pos hin, Bool.true_and]
        rw [Bool.and_eq_true, decide_eq_true_iff, decide_eq_true_iff]
        omega
      · simp [elemMatch, hin]

theorem claim_C6_witness :
    (elemMatch ⟨ElementKind.multiple ['T'] true, 1, 2, false, false⟩
      (String.toList "MAGICHAT") 8).hit = true ∧
    (elemMatch ⟨ElementKind.multiple ['T'] true, 1, 2, false, false⟩
      (String.toList "MAGICHAT") 8).dist = 0 :=
  (claim_C6.2.2 ['T'] 1 2 false false (String.toList "MAGICHAT") 8).mpr (by decide)

/-- **C8**: on the empty sequence, `find` immediately returns the
not-found sentinel `-1` and `find_all` returns the empty list, for
every element chain (hence for every compiled pattern, including ones
whose only element has a zero minimum repeat count). -/
theorem claim_C8 (elements : List Element) :
    find elements [] = -1 ∧ find_all elements [] = [] := by
  refine ⟨?_, ?_⟩
  · simp [find]
  · simp [find_all]

/-- **C9**: reading the distance of a no-match `Match` always yields
the `ValueError`, never a sentinel; a `Match` successfully built by the
constructor with the hit flag set always stores a distance `≥ 0`, which
the accessor returns without error. -/
theorem claim_C9 :
    (∀ m : Match, m.hit = false →
      m.distance = Except.error "Cannot access distance without a match") ∧
    (∀ (hit : Bool) (d : Int) (m : Match), Match.build hit d = Except.ok m →
      m.hit = true → 0 ≤ m.dist ∧ m.distance = Except.ok m.dist) := by
  constructor
  · intro m hm
    simp [Match.distance, hm]
  · intro hit d m hbuild hm
    unfold Match.build at hbuild
    by_cases hc : hit = true ∧ d ≤ -1
    · rw [if_pos hc] at hbuild
      exact absurd hbuild (by simp)
    · rw [if_neg hc] at hbuild
      obtain rfl := Except.ok.inj hbuild
      simp only [Match.hit] at hm
      push_neg at hc
      have hd := hc hm
      refine ⟨by simp only [Match.dist]; omega, ?_⟩
      simp [Match.distance, hm]

theorem claim_C9_witness :
    (Match.distance ⟨false, -1⟩ = Except.error "Cannot access distance without a match") ∧
    (0 ≤ (⟨true, 1⟩ : Match).dist ∧
      Match.distance ⟨true, 1⟩ = Except.ok (⟨true, 1⟩ : Match).dist) :=
  ⟨claim_C9.1 ⟨false, -1⟩ rfl, claim_C9.2 true 1 ⟨true, 1⟩ rfl rfl⟩

theorem findSome_getD_hit {l : List Int} {f : Int → Option Match}
    (hsome : ∀ r m, f r = some m → m.hit = true)
    (hex : ∃ r ∈ l, (f r).isSome = true) :
    ((l.findSome? f).getD ⟨false, -1⟩).hit = true := by
  induction l with
  | nil => simp at hex
  | cons a l ih =>
    rw [List.findSome?_cons]
    cases hfa : f a with
    | some m => simpa using hsome a m hfa
    | none =>
      obtain ⟨r, hr, hs⟩ := hex
      rcases List.mem_cons.mp hr with rfl | hr2
      · rw [hfa] at hs
        simp at hs
      · exact ih ⟨r, hr2, hs⟩

theorem mif_single_zero_min_hit {e : Element} {seq : List Char} {offset : Int}
    (hmin : e.min_repeats = 0) (hmax : 0 ≤ e.max_repeats) :
    (matchIncludingFollowing [e] seq offset).hit = true := by
  unfold matchIncludingFollowing
  apply findSome_getD_hit
  · intro r m hfr
    split at hfr
    · exact absurd hfr (by simp)
    · split at hfr
      · exact absurd hfr (by simp)
      · obtain rfl := Option.some.inj hfr
        rfl
  · refine ⟨0, mem_descRange.mpr ⟨by omega, hmax⟩, ?_⟩
    rw [if_neg (by simp), if_neg (by simp)]
    rfl

/-- **C10**: a pattern consisting of a single element with
`min_repeats = 0` matches everywhere: `find` returns 0 on every
non-empty sequence and `find_all` reports the zero-width span `[i, i)`
at every offset `i < len`, even when the element's character never
occurs — as the compiled `A(0,1).` on `MM` shows. -/
theorem claim_C10 (e : Element) (seq : List Char)
    (hmin : e.min_repeats = 0) (hmax : 0 ≤ e.max_repeats) (hne : seq ≠ []) :
    find [e] seq = 0 ∧
    (∀ i : Nat, i < seq.length →
      (⟨(i : Int), (i : Int)⟩ : MatchLocation) ∈ find_all [e] seq) ∧
    mkPattern (String.toList "A(0,1).") =
      Except.ok [⟨ElementKind.simple 'A', 0, 1, false, false⟩] ∧
    find [⟨ElementKind.simple 'A', 0, 1, false, false⟩] (String.toList "MM") = 0 ∧
    find_all [⟨ElementKind.simple 'A', 0, 1, false, false⟩] (String.toList "MM") =
      [⟨0, 0⟩, ⟨1, 1⟩] := by
  refine ⟨?_, ?_, by decide, by decide, by decide⟩
  · obtain ⟨n, hn⟩ : ∃ n, seq.length = n + 1 := by
      cases hq : seq with
      | nil => exact absurd hq hne
      | cons a l => exact ⟨l.length, by simp⟩
    have hhit : (matchIncludingFollowing [e] seq (((0 : Nat)) : Int)).hit = true :=
      mif_single_zero_min_hit hmin hmax
    rw [find, hn, List.range_succ_eq_map, List.findSome?_cons]
    rw [if_pos hhit]
    rfl
  · intro i hi
    rw [find_all, List.mem_flatMap]
    refine ⟨i, List.mem_range.mpr hi, ?_⟩
    unfold matchAllPossible
    rw [List.mem_flatMap]
    refine ⟨0, mem_descRange.mpr ⟨by omega, hmax⟩, ?_⟩
    rw [if_neg (by simp), if_neg (by simp)]
    rw [if_pos (by omega)]
    simp

theorem intRange_single {a : Int} : intRange a (a + 1) = [a] := by
  unfold intRange
  norm_num [List.range_succ]

theorem range_findSome_none {p : Nat → Bool} {v : Nat → Int} {n : Nat}
    (h : ∀ i < n, p i = false) :
    (List.range n).findSome? (fun k => if p k then some (v k) else none) = none := by
  induction n generalizing p v with
  | zero => simp
  | succ n ih =>
    rw [List.range_succ_eq_map, List.findSome?_cons]
    rw [h 0 (Nat.succ_pos n)]
    simp only [if_false, List.findSome?_map]
    exact ih (fun i hi => h (i + 1) (by omega))

theorem range_findSome_first {p : Nat → Bool} {v : Nat → Int} {n i : Nat}
    (hi : i < n) (hp : p i = true) (hmin : ∀ j < i, p j = false) :
    (List.range n).findSome? (fun k => if p k then some (v k) else none) = some (v i) := by
  induction n generalizing p v i with
  | zero => omega
  | succ n ih =>
    rw [List.range_succ_eq_map, List.findSome?_cons]
    cases hq : p 0 with
    | true =>
      obtain rfl : i = 0 := by
        by_contra hne
        exact absurd hq (by simpa using hmin 0 (by omega))
      simp
    | false =>
      have hi0 : i ≠ 0 := by
        rintro rfl
        rw [hq] at hp
        exact Bool.false_ne_true hp
      have hsub : i - 1 + 1 = i := Nat.sub_add_cancel (Nat.one_le_iff_ne_zero.mpr hi0)
      have hstep := ih (p := fun k => p (k + 1)) (v := fun k => v (k + 1)) (i := i - 1)
        (by omega) (show p (i - 1 + 1) = true by rw [hsub]; exact hp)
        (fun j hj => hmin (j + 1) (by omega))
      beta_reduce at hstep
      rw [hsub] at hstep
      simp only [Bool.false_eq_true, if_false, List.findSome?_map]
      exact hstep

theorem mif_single_literal_hit {c : Char} {seq : List Char} {k : Nat} (hk : k < seq.length) :
    (matchIncludingFollowing [⟨ElementKind.simple c, 1, 1, false, false⟩] seq (k : Int)).hit =
      (seq.getD k '?' == c) := by
  unfold matchIncludingFollowing
  have h11 : descRange 1 1 = [1] := by decide
  rw [h11, List.findSome?_cons]
  have hguard1 : ¬ ((1 : Int) ≠ 0 ∧ (seq.length : Int) - (k : Int) < 1 - 1) := by
    rintro ⟨-, habs⟩
    omega
  rw [if_neg hguard1]
  have hrange : intRange (k : Int) ((k : Int) + 1) = [(k : Int)] := intRange_single
  have hin : 0 ≤ (k : Int) ∧ (k : Int) < (seq.length : Int) :=
    ⟨Int.natCast_nonneg k, by exact_mod_cast hk⟩
  have hok : offset_ok ⟨ElementKind.simple c, 1, 1, false, false⟩ seq (k : Int) = true := by
    simp only [offset_ok]
    rw [if_neg (not_not_intro hin)]
    norm_num
  have hmatch : (elemMatch ⟨ElementKind.simple c, 1, 1, false, false⟩ seq (k : Int)).hit =
      (seq.getD k '?' == c) := by
    simp only [elemMatch, hok, Bool.true_and, seqAt, Match.hit, Int.toNat_natCast]
  cases hc : (seq.getD k '?' == c) with
  | true =>
    rw [if_neg ?_]
    · rfl
    · rintro ⟨-, habs⟩
      rw [hrange] at habs
      simp only [List.all_cons, List.all_nil, Bool.and_true] at habs
      rw [hmatch, hc] at habs
      exact habs rfl
  | false =>
    rw [if_pos ?_]
    · rfl
    · refine ⟨by norm_num, ?_⟩
      rw [hrange]
      simp only [List.all_cons, List.all_nil, Bool.and_true]
      rw [hmatch, hc]
      exact Bool.false_ne_true

/-- **C4**: a compiled single-literal pattern `X.` finds the smallest
index holding `X` and returns `-1` when `X` is absent; in particular
`A.` on `MAGICHAT` finds index 1. -/
theorem claim_C4 (c : Char) (hc : c ∈ AMINOS) (seq : List Char) :
    mkPattern [c, '.'] = Except.ok [⟨ElementKind.simple c, 1, 1, false, false⟩] ∧
    (∀ i : Nat, i < seq.length → seq.getD i '?' = c → (∀ j < i, seq.getD j '?' ≠ c) →
      find [⟨ElementKind.simple c, 1, 1, false, false⟩] seq = (i : Int)) ∧
    ((∀ i < seq.length, seq.getD i '?' ≠ c) →
      find [⟨ElementKind.simple c, 1, 1, false, false⟩] seq = -1) ∧
    find [⟨ElementKind.simple 'A', 1, 1, false, false⟩] (String.toList "MAGICHAT") = 1 := by
  refine ⟨?_, ?_, ?_, by decide⟩
  · fin_cases hc <;> decide
  · intro i hi hieq hjmin
    have hp : (matchIncludingFollowing
        [⟨ElementKind.simple c, 1, 1, false, false⟩] seq ((i : Nat) : Int)).hit = true := by
      rw [mif_single_literal_hit hi]
      exact beq_iff_eq.mpr hieq
    have hm : ∀ j < i, (matchIncludingFollowing
        [⟨ElementKind.simple c, 1, 1, false, false⟩] seq ((j : Nat) : Int)).hit = false := by
      intro j hj
      rw [mif_single_literal_hit (by omega)]
      exact beq_eq_false_iff_ne.mpr (hjmin j hj)
    rw [find, range_findSome_first (p := fun (k : Nat) => (matchIncludingFollowing
        [⟨ElementKind.simple c, 1, 1, false, false⟩] seq (k : Int)).hit)
        (v := fun (k : Nat) => (k : Int)) hi hp hm]
    rfl
  · intro hnone
    have hall : ∀ j < seq.length, (matchIncludingFollowing
        [⟨ElementKind.simple c, 1, 1, false, false⟩] seq ((j : Nat) : Int)).hit = false := by
      intro j hj
      rw [mif_single_literal_hit hj]
      exact beq_eq_false_iff_ne.mpr (hnone j hj)
    rw [find, range_findSome_none (p := fun (k : Nat) => (matchIncludingFollowing
        [⟨ElementKind.simple c, 1, 1, false, false⟩] seq (k : Int)).hit)
        (v := fun (k : Nat) => (k : Int)) hall]
    rfl

theorem claim_C4_witness :
    find [⟨ElementKind.simple 'A', 1, 1, false, false⟩] (String.toList "MAGICHAT") = 1 :=
  (claim_C4 'A' (by decide) (String.toList "MAGICHAT")).2.1 1 (by decide) (by decide)
    (by decide)

theorem findSome_eq_find {l : List Int} {f : Int → Option Match} {g : Int → Bool}
    {v : Int → Match}
    (h : ∀ r ∈ l, f r = if g r = true then some (v r) else none) :
    (l.findSome? f).getD ⟨false, -1⟩ =
      match l.find? g with
      | some r => v r
      | none => ⟨false, -1⟩ := by
  induction l with
  | nil => rfl
  | cons a l ih =>
    rw [List.findSome?_cons, List.find?_cons, h a (List.mem_cons_self a l)]
    cases hg : g a with
    | true => simp
    | false =>
      simp only [Bool.false_eq_true, if_false]
      exact ih (fun r hr => h r (List.mem_cons_of_mem a hr))

theorem all_hit_false_of_short {e : Element} {seq : List Char} {offset r : Int}
    (hr : 1 ≤ r) (hshort : (seq.length : Int) - offset < r - 1) :
    (intRange offset (offset + r)).all (fun i => (elemMatch e seq i).hit) = false := by
  rw [List.all_eq_false]
  refine ⟨offset + r - 1, mem_intRange.mpr ⟨by omega, by omega⟩, ?_⟩
  rw [elemMatch_hit_false_of_gt_length (by omega)]
  exact Bool.false_ne_true

theorem mif_body_eq_goodRep {e : Element} {rest : List Element} {seq : List Char}
    {offset r : Int} (hr : 0 ≤ r) :
    (if r ≠ 0 ∧ (seq.length : Int) - offset < r - 1 then none
     else if r ≠ 0 ∧
         ¬ ((intRange offset (offset + r)).all (fun i => (elemMatch e seq i).hit)) then none
     else
       match rest with
       | [] => some (⟨true, r⟩ : Match)
       | e2 :: rest2 =>
         let nextmatch := matchIncludingFollowing (e2 :: rest2) seq (offset + r)
         if nextmatch.hit then some ⟨true, r + nextmatch.dist⟩ else none)
    = if goodRep e rest seq offset r = true then some (greedyValue rest seq offset r)
      else none := by
  by_cases hr0 : r = 0
  · subst hr0
    rw [if_neg (by simp), if_neg (by simp)]
    have hall : intRange offset (offset + 0) = [] := by
      unfold intRange
      norm_num
    unfold goodRep greedyValue
    rw [hall]
    cases rest with
    | nil => simp
    | cons e2 rest2 => simp only [List.all_nil, Bool.true_and]
  · have hr1 : 1 ≤ r := by omega
    by_cases hshort : (seq.length : Int) - offset < r - 1
    · rw [if_pos ⟨hr0, hshort⟩]
      have hfail := all_hit_false_of_short (e := e) hr1 hshort
      unfold goodRep
      rw [hfail]
      simp
    · rw [if_neg (by tauto)]
      cases hall : (intRange offset (offset + r)).all (fun i => (elemMatch e seq i).hit) with
      | false =>
        rw [if_pos ⟨hr0, by simp [hall]⟩]
        unfold goodRep
        rw [hall]
        simp
      | true =>
        rw [if_neg (by simp [hall])]
        unfold goodRep greedyValue
        rw [hall]
        cases rest with
        | nil => simp
        | cons e2 rest2 => simp only [Bool.true_and]

/-- **C5**: `match_including_following` tries the repeat counts from
`max_repeats` down to `min_repeats` and returns at the first count `r`
whose `r` consumed positions all match and whose successor chain
matches at `offset + r`, with total distance `r` plus the successor
distance; consequently the compiled `Y(1,2).` on `MYKITTYYYY` is first
found at index 1. -/
theorem claim_C5 (e : Element) (rest : List Element) (seq : List Char) (offset : Int)
    (hmin : 0 ≤ e.min_repeats) :
    (matchIncludingFollowing (e :: rest) seq offset =
      match (descRange e.max_repeats e.min_repeats).find?
          (fun r => goodRep e rest seq offset r) with
      | some r => greedyValue rest seq offset r
      | none => ⟨false, -1⟩) ∧
    mkPattern (String.toList "Y(1,2).") =
      Except.ok [⟨ElementKind.simple 'Y', 1, 2, false, false⟩] ∧
    find [⟨ElementKind.simple 'Y', 1, 2, false, false⟩] (String.toList "MYKITTYYYY") = 1 := by
  refine ⟨?_, by decide, by decide⟩
  unfold matchIncludingFollowing
  apply findSome_eq_find
  intro r hr
  exact mif_body_eq_goodRep (le_trans hmin (mem_descRange.mp hr).1)

theorem claim_C5_witness :
    matchIncludingFollowing [⟨ElementKind.simple 'Y', 1, 2, false, false⟩]
        (String.toList "MYKITTYYYY") 1 =
      (match (descRange 2 1).find?
          (fun r => goodRep ⟨ElementKind.simple 'Y', 1, 2, false, false⟩ []
            (String.toList "MYKITTYYYY") 1 r) with
       | some r => greedyValue [] (String.toList "MYKITTYYYY") 1 r
       | none => ⟨false, -1⟩) ∧
    find [⟨ElementKind.simple 'Y', 1, 2, false, false⟩] (String.toList "MYKITTYYYY") = 1 :=
  ⟨(claim_C5 ⟨ElementKind.simple 'Y', 1, 2, false, false⟩ [] (String.toList "MYKITTYYYY") 1
      (by decide)).1,
   (claim_C5 ⟨ElementKind.simple 'Y', 1, 2, false, false⟩ [] (String.toList "MYKITTYYYY") 1
      (by decide)).2.2⟩

theorem matchAllPossible_bounds :
    ∀ (elements : List Element) (seq : List Char) (offset : Int),
    (∀ el ∈ elements, 0 ≤ el.min_repeats) →
    ∀ loc ∈ matchAllPossible elements seq offset,
      loc.start = offset ∧ offset ≤ loc.stop ∧ loc.stop ≤ (seq.length : Int) := by
  intro elements seq
  induction elements with
  | nil =>
    intro offset _ loc h
    simp [matchAllPossible] at h
  | cons e rest ih =>
    intro offset hmins loc h
    unfold matchAllPossible at h
    rw [List.mem_flatMap] at h
    obtain ⟨r, hr, hbody⟩ := h
    have hr0 : 0 ≤ r :=
      le_trans (hmins e (List.mem_cons_self e rest)) (mem_descRange.mp hr).1
    split at hbody
    · simp at hbody
    · split at hbody
      · simp at hbody
      · split at hbody
        · split at hbody
          · rename_i hle
            rw [List.mem_singleton] at hbody
            subst hbody
            refine ⟨rfl, ?_, ?_⟩
            · show offset ≤ offset + r
              omega
            · show offset + r ≤ (seq.length : Int)
              exact hle
          · simp at hbody
        · rw [List.mem_map] at hbody
          obtain ⟨l, hl, rfl⟩ := hbody
          have hrec := ih (offset + r)
            (fun el hel => hmins el (List.mem_cons_of_mem e hel)) l hl
          have h1 := hrec.1
          have h2 := hrec.2.1
          refine ⟨rfl, ?_, ?_⟩
          · show offset ≤ l.stop
            omega
          · show l.stop ≤ (seq.length : Int)
            exact hrec.2.2

theorem split_on_ne_nil (sep : Char) (l : List Char) : split_on sep l ≠ [] := by
  cases l with
  | nil => simp [split_on]
  | cons c rest =>
    unfold split_on
    cases h : split_on sep rest with
    | nil => simp
    | cons g gs =>
      show ¬ (if c = sep then [] :: g :: gs else (c :: g) :: gs) = []
      split <;> simp

theorem split_on_not_mem {sep : Char} :
    ∀ (l : List Char), ∀ part ∈ split_on sep l, sep ∉ part := by
  intro l
  induction l with
  | nil =>
    intro part hp
    simp [split_on] at hp
    simp [hp]
  | cons c rest ih =>
    intro part hp
    unfold split_on at hp
    cases h : split_on sep rest with
    | nil => exact absurd h (split_on_ne_nil sep rest)
    | cons g gs =>
      rw [h] at hp
      have hp2 : part ∈ (if c = sep then [] :: g :: gs else (c :: g) :: gs) := hp
      have hrest : ∀ q ∈ g :: gs, sep ∉ q := by
        intro q hq
        exact ih q (by rw [h]; exact hq)
      by_cases hc : c = sep
      · rw [if_pos hc] at hp2
        rcases List.mem_cons.mp hp2 with rfl | hp3
        · simp
        · exact hrest part hp3
      · rw [if_neg hc] at hp2
        rcases List.mem_cons.mp hp2 with rfl | hp3
        · intro hmem
          rcases List.mem_cons.mp hmem with hceq | hmem2
          · exact hc hceq.symm
          · exact hrest g (List.mem_cons_self g gs) hmem2
        · exact hrest part (List.mem_cons_of_mem g hp3)

theorem parseInt_nonneg {s : List Char} {v : Int} (hs : '-' ∉ s)
    (h : parseInt s = some v) : 0 ≤ v := by
  cases s with
  | nil => simp [parseInt, parseNatDigits] at h
  | cons c cs =>
    have hc : c ≠ '-' := fun hceq => hs (hceq ▸ List.mem_cons_self c cs)
    unfold parseInt at h
    split at h
    · rename_i rest heads
      injection heads with h1 h2
      exact absurd h1 hc
    · rw [Option.map_eq_some'] at h
      obtain ⟨n, -, rfl⟩ := h
      exact Int.natCast_nonneg n

theorem parseIntList_nonneg :
    ∀ {parts : List (List Char)} {vs : List Int},
    (∀ part ∈ parts, '-' ∉ part) → parseIntList parts = some vs → ∀ v ∈ vs, 0 ≤ v := by
  intro parts
  induction parts with
  | nil =>
    intro vs _ h v hv
    obtain rfl := Option.some.inj h
    simp at hv
  | cons p ps ih =>
    intro vs hparts h v hv
    unfold parseIntList at h
    split at h
    · rename_i v1 vs1 hp1 hps1
      obtain rfl := Option.some.inj h
      rcases List.mem_cons.mp hv with rfl | hv2
      · exact parseInt_nonneg (hparts p (List.mem_cons_self p ps)) hp1
      · exact ih (fun q hq => hparts q (List.mem_cons_of_mem p hq)) hps1 v hv2
    · exact absurd h (by simp)

theorem not_mem_of_sublist_chain {c : Char} {l : List Char} (h : c ∉ l)
    (sub : List Char) (hsub : sub.Sublist l) : c ∉ sub :=
  fun hmem => h (hsub.mem hmem)

theorem split_on_mem_subset {sep : Char} :
    ∀ (l : List Char), ∀ part ∈ split_on sep l, ∀ c ∈ part, c ∈ l := by
  intro l
  induction l with
  | nil =>
    intro part hp
    simp [split_on] at hp
    simp [hp]
  | cons a rest ih =>
    intro part hp c hc
    unfold split_on at hp
    cases h : split_on sep rest with
    | nil => exact absurd h (split_on_ne_nil sep rest)
    | cons g gs =>
      rw [h] at hp
      have hp2 : part ∈ (if a = sep then [] :: g :: gs else (a :: g) :: gs) := hp
      have hrest : ∀ q ∈ g :: gs, ∀ x ∈ q, x ∈ rest := by
        intro q hq x hx
        exact ih q (by rw [h]; exact hq) x hx
      by_cases ha : a = sep
      · rw [if_pos ha] at hp2
        rcases List.mem_cons.mp hp2 with rfl | hp3
        · simp at hc
        · exact List.mem_cons_of_mem a (hrest part hp3 c hc)
      · rw [if_neg ha] at hp2
        rcases List.mem_cons.mp hp2 with rfl | hp3
        · rcases List.mem_cons.mp hc with rfl | hc2
          · exact List.mem_cons_self c rest
          · exact List.mem_cons_of_mem a (hrest g (List.mem_cons_self g gs) c hc2)
        · exact List.mem_cons_of_mem a (hrest part (List.mem_cons_of_mem g hp3) c hc)

theorem parse_repeats_nonneg {s : List Char} {off : Nat} {mn mx : Int}
    (hs : '-' ∉ s) (h : parse_repeats s off = Except.ok (mn, mx)) :
    0 ≤ mn ∧ 0 ≤ mx := by
  unfold parse_repeats at h
  split at h
  · rw [Except.ok.injEq] at h
    have h2 := Prod.mk.inj h
    omega
  · split at h
    · exact absurd h (by simp)
    · have hinner : '-' ∉ (s.drop (off + 1)).dropLast :=
        not_mem_of_sublist_chain hs _
          (List.Sublist.trans (List.dropLast_sublist _) (List.drop_sublist _ _))
      have hforall : ∀ part ∈ split_on ',' (s.drop (off + 1)).dropLast, '-' ∉ part :=
        fun part hp hm => hinner (split_on_mem_subset _ part hp '-' hm)
      split at h
      · exact absurd h (by simp)
      · rename_i repeats hlist
        have hvals : ∀ v ∈ repeats, 0 ≤ v := parseIntList_nonneg hforall hlist
        split at h
        · rename_i r
          rw [Except.ok.injEq] at h
          have h2 := Prod.mk.inj h
          have h3 := hvals r (by simp)
          omega
        · rename_i r1 r2
          rw [Except.ok.injEq] at h
          have h2 := Prod.mk.inj h
          have h3 := hvals r1 (by simp)
          have h4 := hvals r2 (by simp)
          omega
        · exact absurd h (by simp)

theorem parse_terminus_not_mem {part : List Char} (h : '-' ∉ part) :
    '-' ∉ (parse_terminus part).2.1 := by
  unfold parse_terminus
  have htail : '-' ∉ part.tail :=
    not_mem_of_sublist_chain h _ (List.tail_sublist part)
  have htaildrop : '-' ∉ part.tail.dropLast :=
    not_mem_of_sublist_chain htail _ (List.dropLast_sublist _)
  have hdrop : '-' ∉ part.dropLast :=
    not_mem_of_sublist_chain h _ (List.dropLast_sublist _)
  split
  · split
    · exact htaildrop
    · exact htail
  · split
    · exact hdrop
    · exact h

theorem element_init_min {kind : ElementKind} {mn mx : Int} {rest chain : List Element}
    {nterm cterm : Bool} (hmn : 0 ≤ mn)
    (hrest : ∀ el ∈ rest, 0 ≤ el.min_repeats)
    (h : element_init kind mn mx rest nterm cterm = Except.ok chain) :
    ∀ el ∈ chain, 0 ≤ el.min_repeats := by
  unfold element_init at h
  split at h
  · exact absurd h (by simp)
  · split at h
    · exact absurd h (by simp)
    · obtain rfl := Except.ok.inj h
      intro el hel
      rcases List.mem_cons.mp hel with rfl | h2
      · exact hmn
      · exact hrest el h2

theorem parse_options_min {s : List Char} {a b : Char} {opts : AmbiguityOptions}
    (hs : '-' ∉ s) (h : parse_options s a b = Except.ok opts) :
    0 ≤ opts.min_repeats := by
  unfold parse_options at h
  split at h
  · exact absurd h (by simp)
  · split at h
    · exact absurd h (by simp)
    · split at h
      · exact absurd h (by simp)
      · split at h
        · exact absurd h (by simp)
        · rename_i mn mx hpr
          split at h
          · exact absurd h (by simp)
          · obtain rfl := Except.ok.inj h
            exact (parse_repeats_nonneg hs hpr).1

theorem SimpleAmino_min {element : List Char} {rest chain : List Element}
    {nterm cterm : Bool} (hel : '-' ∉ element)
    (hrest : ∀ el ∈ rest, 0 ≤ el.min_repeats)
    (h : SimpleAmino element rest nterm cterm = Except.ok chain) :
    ∀ el ∈ chain, 0 ≤ el.min_repeats := by
  unfold SimpleAmino at h
  split at h
  · exact absurd h (by simp)
  · split at h
    · exact absurd h (by simp)
    · rename_i mn mx hpr
      exact element_init_min (parse_repeats_nonneg hel hpr).1 hrest h

theorem AnyAmino_min {element : List Char} {rest chain : List Element}
    {nterm cterm : Bool} (hel : '-' ∉ element)
    (hrest : ∀ el ∈ rest, 0 ≤ el.min_repeats)
    (h : AnyAmino element rest nterm cterm = Except.ok chain) :
    ∀ el ∈ chain, 0 ≤ el.min_repeats := by
  unfold AnyAmino at h
  split at h
  · exact absurd h (by simp)
  · split at h
    · exact absurd h (by simp)
    · rename_i mn mx hpr
      exact element_init_min (parse_repeats_nonneg hel hpr).1 hrest h

theorem MultipleAmino_min {element : List Char} {rest chain : List Element}
    {nterm cterm : Bool} (hel : '-' ∉ element)
    (hrest : ∀ el ∈ rest, 0 ≤ el.min_repeats)
    (h : MultipleAmino element rest nterm cterm = Except.ok chain) :
    ∀ el ∈ chain, 0 ≤ el.min_repeats := by
  unfold MultipleAmino at h
  split at h
  · exact absurd h (by simp)
  · rename_i parsed hpo
    exact element_init_min (parse_options_min hel hpo) hrest h

theorem NegatedAmino_min {element : List Char} {rest chain : List Element}
    {nterm cterm : Bool} (hel : '-' ∉ element)
    (hrest : ∀ el ∈ rest, 0 ≤ el.min_repeats)
    (h : NegatedAmino element rest nterm cterm = Except.ok chain) :
    ∀ el ∈ chain, 0 ≤ el.min_repeats := by
  unfold NegatedAmino at h
  split at h
  · exact absurd h (by simp)
  · rename_i parsed hpo
    exact element_init_min (parse_options_min hel hpo) hrest h

theorem buildElement_min {chain0 chain : List Element} {part : List Char}
    (hpart : '-' ∉ part) (h0 : ∀ el ∈ chain0, 0 ≤ el.min_repeats)
    (h : buildElement chain0 part = Except.ok chain) :
    ∀ el ∈ chain, 0 ≤ el.min_repeats := by
  have hbody : '-' ∉ (parse_terminus part).2.1 := parse_terminus_not_mem hpart
  unfold buildElement at h
  split at h
  · exact SimpleAmino_min hbody h0 h
  · split at h
    · exact AnyAmino_min hbody h0 h
    · split at h
      · exact MultipleAmino_min hbody h0 h
      · split at h
        · exact NegatedAmino_min hbody h0 h
        · exact absurd h (by simp)

theorem foldlM_buildElement_min :
    ∀ (parts : List (List Char)) (chain0 : List Element),
    (∀ part ∈ parts, '-' ∉ part) → (∀ el ∈ chain0, 0 ≤ el.min_repeats) →
    ∀ chain, List.foldlM buildElement chain0 parts = Except.ok chain →
    ∀ el ∈ chain, 0 ≤ el.min_repeats := by
  intro parts
  induction parts with
  | nil =>
    intro chain0 _ h0 chain hfold
    rw [List.foldlM_nil] at hfold
    obtain rfl := Except.ok.inj hfold
    exact h0
  | cons p ps ih =>
    intro chain0 hparts h0 chain hfold
    rw [List.foldlM_cons] at hfold
    cases hb : buildElement chain0 p with
    | error e =>
      rw [hb] at hfold
      have hfold2 : (Except.error e : Except String (List Element)) = Except.ok chain := hfold
      exact absurd hfold2 (by simp)
    | ok chain1 =>
      rw [hb] at hfold
      have hfold2 : List.foldlM buildElement chain1 ps = Except.ok chain := hfold
      exact ih chain1 (fun q hq => hparts q (List.mem_cons_of_mem p hq))
        (buildElement_min (hparts p (List.mem_cons_self p ps)) h0 hb) chain hfold2

theorem mkPattern_min {ps : List Char} {chain : List Element}
    (h : mkPattern ps = Except.ok chain) : ∀ el ∈ chain, 0 ≤ el.min_repeats := by
  unfold mkPattern at h
  split at h
  · exact absurd h (by simp)
  · split at h
    · exact absurd h (by simp)
    · rename_i chain0 hfold
      split at h
      · exact absurd h (by simp)
      · obtain rfl := Except.ok.inj h
        exact foldlM_buildElement_min _ []
          (fun part hp => by
            rw [List.mem_reverse] at hp
            exact split_on_not_mem _ part hp)
          (by simp) chain0 hfold

/-- **C7**: every compiled pattern produces only well-formed spans: for
every `MatchLocation` returned by `find_all`, `0 ≤ start ≤ end` and
`end` never exceeds the length of the searched sequence.  (The dash
splitting of the pattern string makes a negative repeat count
unrepresentable, so every compiled element has `min_repeats ≥ 0`, which
the span invariant rests on.) -/
theorem claim_C7 (ps : List Char) (chain : List Element) (seq : List Char)
    (h : mkPattern ps = Except.ok chain) :
    ∀ loc ∈ find_all chain seq,
      0 ≤ loc.start ∧ loc.start ≤ loc.stop ∧ loc.stop ≤ (seq.length : Int) := by
  intro loc hloc
  rw [find_all, List.mem_flatMap] at hloc
  obtain ⟨i, hi, hm⟩ := hloc
  have hb := matchAllPossible_bounds chain seq (i : Int) (mkPattern_min h) loc hm
  have h1 := hb.1
  have h2 := hb.2.1
  have h3 := hb.2.2
  refine ⟨by omega, by omega, h3⟩

theorem claim_C7_witness :
    0 ≤ (⟨0, 1⟩ : MatchLocation).start ∧
    (⟨0, 1⟩ : MatchLocation).start ≤ (⟨0, 1⟩ : MatchLocation).stop ∧
    (⟨0, 1⟩ : MatchLocation).stop ≤ (((String.toList "A").length : Nat) : Int) :=
  claim_C7 (String.toList "A.") [⟨ElementKind.simple 'A', 1, 1, false, false⟩]
    (String.toList "A") (by decide) ⟨0, 1⟩ (by decide)

theorem claim_C10_witness :
    find [⟨ElementKind.simple 'A', 0, 1, false, false⟩] (String.toList "MM") = 0 ∧
    ((⟨1, 1⟩ : MatchLocation) ∈
      find_all [⟨ElementKind.simple 'A', 0, 1, false, false⟩] (String.toList "MM")) :=
  ⟨(claim_C10 ⟨ElementKind.simple 'A', 0, 1, false, false⟩ (String.toList "MM")
      rfl (by decide) (by decide)).1,
   (claim_C10 ⟨ElementKind.simple 'A', 0, 1, false, false⟩ (String.toList "MM")
      rfl (by decide) (by decide)).2.1 1 (by decide)⟩

end PatternSearch
